import Mathlib

/-!
Shallow embedding of the consensus core of a proof-of-work blockchain node
(ledger with longest-chain fork choice, account state, mempool admission,
Merkle commitments, and the network worker's block-handling path), together
with proofs about the embedded operations.

256-bit digests (`H256`) are modelled as natural numbers: the spec treats a
digest as a totally ordered unsigned big-endian integer, which `Nat` with its
usual order captures. Cryptographic hash functions (SHA-256 over bincode
serializations) are modelled as explicit function parameters; where a proof
needs collision-freedom it carries an injectivity hypothesis, discharged in
witnesses by a concrete injective encoding built from `Nat.pair`.

`HashMap` is modelled as an association list with erase-then-prepend
insertion, so keys stay distinct and entry iteration matches hash-map
iteration over its (unique-key) entries.
-/

/-- Association-list model of `std::collections::HashMap` with `Nat` keys. -/
abbrev HMap (V : Type) : Type := List (Nat × V)

/-- Lookup: first entry with the given key. -/
def hmGet {V : Type} : HMap V → Nat → Option V
  | [], _ => none
  | (k, v) :: rest, key => if key = k then some v else hmGet rest key

/-- Remove every entry with the given key (`HashMap::remove`). -/
def hmErase {V : Type} (m : HMap V) (k : Nat) : HMap V :=
  m.filter (fun p => decide (p.1 ≠ k))

/-- Keyed insertion (`HashMap::insert`): the new entry replaces any old one. -/
def hmInsert {V : Type} (m : HMap V) (k : Nat) (v : V) : HMap V :=
  (k, v) :: hmErase m k

/-- Key-membership test (`HashMap::contains_key`). -/
def hmContains {V : Type} (m : HMap V) (k : Nat) : Bool :=
  (hmGet m k).isSome

/-- Number of entries (`HashMap::len`); keys are distinct for maps built by
`hmInsert`, so this is the number of keys. -/
def hmLen {V : Type} (m : HMap V) : Nat := m.length

theorem hmGet_erase {V : Type} (m : HMap V) (k k' : Nat) :
    hmGet (hmErase m k) k' = if k' = k then none else hmGet m k' := by
  induction m with
  | nil => simp [hmErase, hmGet]
  | cons p rest ih =>
    obtain ⟨pk, pv⟩ := p
    by_cases hpk : pk = k
    · subst hpk
      by_cases hk' : k' = pk
      · subst hk'
        simpa [hmErase, hmGet] using ih
      · simpa [hmErase, hmGet, hk'] using ih
    · by_cases hk' : k' = pk
      · subst hk'
        have : ¬ k' = k := fun h => hpk (h ▸ rfl)
        simp [hmErase, hmGet, hpk, this]
      · simpa [hmErase, hmGet, hpk, hk'] using ih

theorem hmGet_insert {V : Type} (m : HMap V) (k k' : Nat) (v : V) :
    hmGet (hmInsert m k v) k' = if k' = k then some v else hmGet m k' := by
  by_cases h : k' = k
  · simp [hmInsert, hmGet, h]
  · simp [hmInsert, hmGet, h, hmGet_erase]

theorem hmGet_insert_self {V : Type} (m : HMap V) (k : Nat) (v : V) :
    hmGet (hmInsert m k v) k = some v := by
  simp [hmGet_insert]

theorem hmGet_insert_ne {V : Type} (m : HMap V) {k k' : Nat} (v : V) (h : k' ≠ k) :
    hmGet (hmInsert m k v) k' = hmGet m k' := by
  simp [hmGet_insert, h]

theorem hmContains_insert {V : Type} (m : HMap V) (k k' : Nat) (v : V) :
    hmContains (hmInsert m k v) k' = (if k' = k then true else hmContains m k') := by
  by_cases h : k' = k <;> simp [hmContains, hmGet_insert, h]

theorem hmContains_insert_of_contains {V : Type} (m : HMap V) {k' : Nat} (k : Nat) (v : V)
    (h : hmContains m k' = true) : hmContains (hmInsert m k v) k' = true := by
  by_cases hk : k' = k <;> simp [hmContains_insert, hk, h]

theorem hmErase_of_not_contains {V : Type} {m : HMap V} {k : Nat}
    (h : hmContains m k = false) : hmErase m k = m := by
  induction m with
  | nil => rfl
  | cons p rest ih =>
    obtain ⟨pk, pv⟩ := p
    by_cases hpk : k = pk
    · subst hpk
      simp [hmContains, hmGet] at h
    · have hrest : hmContains rest k = false := by
        simpa [hmContains, hmGet, hpk] using h
      have hne : ¬ pk = k := fun hh => hpk (hh ▸ rfl)
      simp [hmErase, hne] at ih ⊢
      exact ih hrest

/-- Keys of the map are pairwise distinct. -/
def hmNodup {V : Type} (m : HMap V) : Prop := (m.map Prod.fst).Nodup

theorem hmNodup_erase {V : Type} {m : HMap V} (k : Nat) (h : hmNodup m) :
    hmNodup (hmErase m k) := by
  unfold hmNodup at h ⊢
  exact List.Nodup.sublist (List.Sublist.map Prod.fst (List.filter_sublist m)) h

theorem hmGet_eq_none_of_not_mem_keys {V : Type} {m : HMap V} {k : Nat}
    (h : k ∉ m.map Prod.fst) : hmGet m k = none := by
  induction m with
  | nil => rfl
  | cons p rest ih =>
    obtain ⟨pk, pv⟩ := p
    rw [List.map_cons, List.mem_cons] at h
    push_neg at h
    simp [hmGet, h.1]
    exact ih h.2

theorem not_mem_keys_erase {V : Type} (m : HMap V) (k : Nat) :
    k ∉ (hmErase m k).map Prod.fst := by
  intro hmem
  rw [List.mem_map] at hmem
  obtain ⟨p, hp, hpk⟩ := hmem
  have hfilt := List.of_mem_filter hp
  rw [decide_eq_true_iff] at hfilt
  exact hfilt hpk

theorem hmNodup_insert {V : Type} {m : HMap V} (k : Nat) (v : V) (h : hmNodup m) :
    hmNodup (hmInsert m k v) := by
  unfold hmNodup hmInsert
  rw [List.map_cons]
  exact List.nodup_cons.mpr ⟨not_mem_keys_erase m k, hmNodup_erase k h⟩

theorem hmLen_erase_of_contains {V : Type} {m : HMap V} {k : Nat}
    (hnd : hmNodup m) (h : hmContains m k = true) :
    hmLen (hmErase m k) + 1 = hmLen m := by
  induction m with
  | nil => simp [hmContains, hmGet] at h
  | cons p rest ih =>
    obtain ⟨pk, pv⟩ := p
    have hnd2 : (pk :: rest.map Prod.fst).Nodup := by simpa [hmNodup] using hnd
    have hnd' : hmNodup rest := (List.nodup_cons.mp hnd2).2
    by_cases hpk : pk = k
    · subst hpk
      have hk : pk ∉ rest.map Prod.fst := (List.nodup_cons.mp hnd2).1
      have hrest : hmContains rest pk = false := by
        simp [hmContains, hmGet_eq_none_of_not_mem_keys hk]
      have hstep : hmErase ((pk, pv) :: rest) pk = hmErase rest pk := by
        simp [hmErase, List.filter_cons]
      rw [hstep, hmErase_of_not_contains hrest]
      simp [hmLen]
    · have h' : hmContains rest k = true := by
        have hne : ¬ k = pk := fun hh => hpk hh.symm
        simpa [hmContains, hmGet, hne] using h
      have hstep : hmErase ((pk, pv) :: rest) k = (pk, pv) :: hmErase rest k := by
        simp [hmErase, List.filter_cons, hpk]
      rw [hstep]
      have := ih hnd' h'
      simp [hmLen] at this ⊢
      omega

theorem hmLen_insert_le {V : Type} (m : HMap V) (k : Nat) (v : V) :
    hmLen (hmInsert m k v) ≤ hmLen m + 1 := by
  unfold hmInsert hmLen hmErase
  simp
  exact List.length_filter_le _ m

theorem hmLen_insert_of_contains {V : Type} {m : HMap V} {k : Nat} (v : V)
    (hnd : hmNodup m) (h : hmContains m k = true) :
    hmLen (hmInsert m k v) = hmLen m := by
  unfold hmInsert
  have := hmLen_erase_of_contains hnd h
  simp [hmLen] at this ⊢
  omega

theorem hmLen_insert_of_not_contains {V : Type} {m : HMap V} {k : Nat} (v : V)
    (h : hmContains m k = false) : hmLen (hmInsert m k v) = hmLen m + 1 := by
  unfold hmInsert
  rw [hmErase_of_not_contains h]
  simp [hmLen]

/-! ## Data model (src/types/block.rs, src/types/transaction.rs)

Modelled from the spec: the `H256` digest type itself (src/types/hash.rs is
not under src/) — a fixed 256-bit value totally ordered as an unsigned
big-endian integer, here a `Nat`; addresses (src/types/address.rs) are
likewise digests derived one-way from a public key, here an abstract
function parameter. -/

/-- u64 values wrap modulo this. -/
def U64MOD : Nat := 2 ^ 64

/-- Wrapping u64 addition. -/
def wrapAdd (a b : Nat) : Nat := (a + b) % U64MOD

/-- Wrapping u64 subtraction (operands below `U64MOD`). -/
def wrapSub (a b : Nat) : Nat := (a + U64MOD - b % U64MOD) % U64MOD

/-- `Transaction { receiver, value, nonce }`. -/
structure Transaction where
  receiver : Nat
  value : Nat
  nonce : Nat
deriving DecidableEq, Repr

/-- `SignedTransaction { transaction, signature, public_key }`; signature and
public key bytes are abstracted to numeric codes. -/
structure SignedTransaction where
  transaction : Transaction
  signature : Nat
  public_key : Nat
deriving DecidableEq, Repr

/-- `SignedTransaction::sender_address`: derive the sender address from the
public key; `deriveAddress` abstracts `Address::from_public_key_bytes`. -/
def SignedTransaction.sender_address (deriveAddress : Nat → Nat)
    (tx : SignedTransaction) : Nat :=
  deriveAddress tx.public_key

/-- `Header { parent, nonce, difficulty, timestamp, merkle_root }`. -/
structure Header where
  parent : Nat
  nonce : Nat
  difficulty : Nat
  timestamp : Nat
  merkle_root : Nat
deriving DecidableEq, Repr

/-- `Content { transactions }`. -/
structure Content where
  transactions : List SignedTransaction
deriving DecidableEq, Repr

/-- `Block { header, content }`. -/
structure Block where
  header : Header
  content : Content
deriving DecidableEq, Repr

/-- `Block::get_parent`. -/
def Block.get_parent (b : Block) : Nat := b.header.parent

/-- `Block::get_difficulty`. -/
def Block.get_difficulty (b : Block) : Nat := b.header.difficulty

/-! ## Account state (src/types/state.rs) -/

/-- `State { accounts: HashMap<Address, (u64, u64)> }`: address to
(nonce, balance). -/
structure State where
  accounts : HMap (Nat × Nat)
deriving Repr

/-- `State::is_valid_transaction`: the sender account exists, its stored
nonce + 1 (u64) equals the transaction nonce, and its balance covers the
value. -/
def State.is_valid_transaction (deriveAddress : Nat → Nat) (s : State)
    (tx : SignedTransaction) : Bool :=
  match hmGet s.accounts (tx.sender_address deriveAddress) with
  | some (nonce, balance) =>
      decide (wrapAdd nonce 1 = tx.transaction.nonce) &&
        decide (tx.transaction.value ≤ balance)
  | none => false

/-- First statement of `State::apply_transaction`: if the sender account
exists, increment its nonce and debit the value (u64 arithmetic); otherwise
do nothing to the sender side. -/
def applyDebit (deriveAddress : Nat → Nat) (s : State)
    (tx : SignedTransaction) : State :=
  match hmGet s.accounts (tx.sender_address deriveAddress) with
  | some (nonce, balance) =>
      ⟨hmInsert s.accounts (tx.sender_address deriveAddress)
        (wrapAdd nonce 1, wrapSub balance tx.transaction.value)⟩
  | none => s

/-- Second statement of `State::apply_transaction`: credit the receiver,
creating the account with balance `value` (and nonce 0) if absent. -/
def applyCredit (s1 : State) (tx : SignedTransaction) : State :=
  match hmGet s1.accounts tx.transaction.receiver with
  | some (n, b) =>
      ⟨hmInsert s1.accounts tx.transaction.receiver
        (n, wrapAdd b tx.transaction.value)⟩
  | none =>
      ⟨hmInsert s1.accounts tx.transaction.receiver (0, tx.transaction.value)⟩

/-- `State::apply_transaction`: sender update followed by receiver update. -/
def State.apply_transaction (deriveAddress : Nat → Nat) (s : State)
    (tx : SignedTransaction) : State :=
  applyCredit (applyDebit deriveAddress s tx) tx

/-! ## Claim C7: transaction validity predicate -/

/-- C7: `State::is_valid_transaction(tx)` returns true iff the sender account
(derived from the transaction's public key) exists, the stored nonce plus 1
(u64 addition) equals the transaction's nonce, and the stored balance is at
least the transferred value; an unknown sender always yields false. -/
theorem c7_is_valid_transaction_iff (deriveAddress : Nat → Nat) (s : State)
    (tx : SignedTransaction) :
    (State.is_valid_transaction deriveAddress s tx = true ↔
      ∃ n b, hmGet s.accounts (tx.sender_address deriveAddress) = some (n, b) ∧
        wrapAdd n 1 = tx.transaction.nonce ∧ tx.transaction.value ≤ b) ∧
    (hmGet s.accounts (tx.sender_address deriveAddress) = none →
      State.is_valid_transaction deriveAddress s tx = false) := by
  constructor
  · unfold State.is_valid_transaction
    cases hacct : hmGet s.accounts (tx.sender_address deriveAddress) with
    | none =>
      constructor
      · intro h
        exact absurd h (by simp)
      · rintro ⟨n, b, heq, _, _⟩
        exact absurd heq (by simp)
    | some p =>
      obtain ⟨n, b⟩ := p
      constructor
      · intro h
        have h' : (decide (wrapAdd n 1 = tx.transaction.nonce) &&
            decide (tx.transaction.value ≤ b)) = true := h
        rw [Bool.and_eq_true, decide_eq_true_iff, decide_eq_true_iff] at h'
        exact ⟨n, b, rfl, h'.1, h'.2⟩
      · rintro ⟨n', b', heq, h1, h2⟩
        rw [Option.some.injEq, Prod.mk.injEq] at heq
        have hgoal : (decide (wrapAdd n 1 = tx.transaction.nonce) &&
            decide (tx.transaction.value ≤ b)) = true := by
          rw [Bool.and_eq_true, decide_eq_true_iff, decide_eq_true_iff]
          exact ⟨by rw [heq.1]; exact h1, by rw [heq.2]; exact h2⟩
        exact hgoal
  · intro h
    unfold State.is_valid_transaction
    rw [h]

/-- Witness for C7 at a concrete input: the empty state knows no sender, so
the predicate evaluates to false there. -/
theorem c7_is_valid_transaction_iff_witness :
    State.is_valid_transaction (fun a => a) ⟨[]⟩ ⟨⟨0, 0, 0⟩, 0, 0⟩ = false :=
  (c7_is_valid_transaction_iff (fun a => a) ⟨[]⟩ ⟨⟨0, 0, 0⟩, 0, 0⟩).2 rfl

/-! ## Claim C4: applying a valid transaction -/

/-- Concrete state for the C4 counterexample: one account, address 5, with
nonce 0 and balance 100. -/
def c4state : State := ⟨[(5, (0, 100))]⟩

/-- Concrete self-transfer for the C4 counterexample: the sender address
(derived from public key 5 by the identity derivation) equals the receiver
address 5; value 10, nonce 1. -/
def c4tx : SignedTransaction := ⟨⟨5, 10, 1⟩, 0, 5⟩

/-- C4 counterexample: a self-transfer is accepted by
`State::is_valid_transaction`, but `State::apply_transaction` leaves the
sender's balance at 100 instead of decreasing it by the value 10: the debit
is immediately undone by the receiver credit to the same account. -/
theorem c4_self_transfer_counterexample :
    State.is_valid_transaction (fun a => a) c4state c4tx = true ∧
    hmGet c4state.accounts 5 = some (0, 100) ∧
    hmGet ((State.apply_transaction (fun a => a) c4state c4tx).accounts) 5 =
      some (1, 100) ∧
    hmGet ((State.apply_transaction (fun a => a) c4state c4tx).accounts) 5 ≠
      some (1, 100 - 10) := by
  refine ⟨by decide, by decide, by decide, by decide⟩

theorem wrapAdd_one_eq (n : Nat) (h : n + 1 < U64MOD) : wrapAdd n 1 = n + 1 := by
  unfold wrapAdd
  exact Nat.mod_eq_of_lt h

theorem wrapSub_eq (b v : Nat) (hv : v ≤ b) (hb : b < U64MOD) :
    wrapSub b v = b - v := by
  unfold wrapSub
  have hvlt : v < U64MOD := Nat.lt_of_le_of_lt hv hb
  rw [Nat.mod_eq_of_lt hvlt]
  have h1 : b + U64MOD - v = (b - v) + U64MOD := by omega
  rw [h1, Nat.add_mod_right]
  exact Nat.mod_eq_of_lt (by omega)

/-- C4 (amended): for every state and every signed transaction accepted by
`is_valid_transaction` whose sender address differs from its receiver
address, `apply_transaction` increments the sender's sequence number by
exactly 1 (its u64 increment not wrapping), decreases the sender's balance by
exactly the value, and increases the receiver's balance by exactly the value
(its u64 addition not wrapping), creating the receiver account at exactly the
value if it was absent. For a self-transfer this fails: the debit is undone
by the credit (see the counterexample). -/
theorem c4_apply_valid_transaction (deriveAddress : Nat → Nat) (s : State)
    (tx : SignedTransaction) (n b : Nat)
    (hacct : hmGet s.accounts (tx.sender_address deriveAddress) = some (n, b))
    (hvalid : State.is_valid_transaction deriveAddress s tx = true)
    (hne : tx.sender_address deriveAddress ≠ tx.transaction.receiver)
    (hn : n + 1 < U64MOD) (hb : b < U64MOD) :
    tx.transaction.value ≤ b ∧
    hmGet ((State.apply_transaction deriveAddress s tx).accounts)
        (tx.sender_address deriveAddress) =
      some (n + 1, b - tx.transaction.value) ∧
    (∀ rn rb, hmGet s.accounts tx.transaction.receiver = some (rn, rb) →
      rb + tx.transaction.value < U64MOD →
      hmGet ((State.apply_transaction deriveAddress s tx).accounts)
          tx.transaction.receiver =
        some (rn, rb + tx.transaction.value)) ∧
    (hmGet s.accounts tx.transaction.receiver = none →
      hmGet ((State.apply_transaction deriveAddress s tx).accounts)
          tx.transaction.receiver =
        some (0, tx.transaction.value)) := by
  have hv2 : (decide (wrapAdd n 1 = tx.transaction.nonce) &&
      decide (tx.transaction.value ≤ b)) = true := by
    unfold State.is_valid_transaction at hvalid
    rw [hacct] at hvalid
    exact hvalid
  rw [Bool.and_eq_true, decide_eq_true_iff, decide_eq_true_iff] at hv2
  have hval : tx.transaction.value ≤ b := hv2.2
  have hdeb : applyDebit deriveAddress s tx =
      ⟨hmInsert s.accounts (tx.sender_address deriveAddress)
        (wrapAdd n 1, wrapSub b tx.transaction.value)⟩ := by
    unfold applyDebit
    rw [hacct]
  have hrecv1 : hmGet (applyDebit deriveAddress s tx).accounts
      tx.transaction.receiver = hmGet s.accounts tx.transaction.receiver := by
    rw [hdeb]
    exact hmGet_insert_ne _ _ (fun hh => hne hh.symm)
  refine ⟨hval, ?_, ?_, ?_⟩
  · unfold State.apply_transaction applyCredit
    cases hr : hmGet s.accounts tx.transaction.receiver with
    | none =>
      rw [hrecv1, hr]
      have : hmGet (hmInsert (applyDebit deriveAddress s tx).accounts
          tx.transaction.receiver (0, tx.transaction.value))
          (tx.sender_address deriveAddress) =
          hmGet (applyDebit deriveAddress s tx).accounts
            (tx.sender_address deriveAddress) :=
        hmGet_insert_ne _ _ hne
      rw [this, hdeb, hmGet_insert_self, wrapAdd_one_eq n hn,
        wrapSub_eq b tx.transaction.value hval hb]
    | some p =>
      obtain ⟨rn, rb⟩ := p
      rw [hrecv1, hr]
      have : hmGet (hmInsert (applyDebit deriveAddress s tx).accounts
          tx.transaction.receiver (rn, wrapAdd rb tx.transaction.value))
          (tx.sender_address deriveAddress) =
          hmGet (applyDebit deriveAddress s tx).accounts
            (tx.sender_address deriveAddress) :=
        hmGet_insert_ne _ _ hne
      rw [this, hdeb, hmGet_insert_self, wrapAdd_one_eq n hn,
        wrapSub_eq b tx.transaction.value hval hb]
  · intro rn rb hr hbound
    unfold State.apply_transaction applyCredit
    rw [hrecv1, hr, hmGet_insert_self]
    rw [wrapAdd, Nat.mod_eq_of_lt hbound]
  · intro hr
    unfold State.apply_transaction applyCredit
    rw [hrecv1, hr, hmGet_insert_self]

/-- Witness for C4 (amended) at a concrete input: account 1 with nonce 0 and
balance 50 sends 20 to the previously absent account 2. -/
theorem c4_apply_valid_transaction_witness :
    hmGet ((State.apply_transaction (fun a => a)
        ⟨[(1, (0, 50))]⟩ ⟨⟨2, 20, 1⟩, 0, 1⟩).accounts) 1 = some (1, 30) ∧
    hmGet ((State.apply_transaction (fun a => a)
        ⟨[(1, (0, 50))]⟩ ⟨⟨2, 20, 1⟩, 0, 1⟩).accounts) 2 = some (0, 20) := by
  have h := c4_apply_valid_transaction (fun a => a)
    ⟨[(1, (0, 50))]⟩ ⟨⟨2, 20, 1⟩, 0, 1⟩ 0 50 (by decide) (by decide)
    (by decide) (by decide) (by decide)
  exact ⟨h.2.1, h.2.2.2 (by decide)⟩

/-! ## Mempool (src/types/transaction.rs)

`sigok` abstracts `transaction::verify` (Ed25519 verification of the
serialized inner transaction against the supplied public key and signature),
and `txHash` abstracts `SignedTransaction::hash` (SHA-256 of the bincode
serialization of the whole signed envelope). -/

/-- `Mempool { pool: HashMap<H256, SignedTransaction>, max_size }`. -/
structure Mempool where
  pool : HMap SignedTransaction
  max_size : Nat
deriving Repr

/-- `Mempool::new`. -/
def Mempool.new (max_size : Nat) : Mempool := ⟨[], max_size⟩

/-- `Mempool::add_transaction`, with the borrowed pool returned explicitly:
on a rejection the returned pool is the input pool (the Rust method early-
returns before mutating `self`). The strings are the source's error texts. -/
def Mempool.add_transaction (sigok : Transaction → Nat → Nat → Bool)
    (txHash : SignedTransaction → Nat) (mp : Mempool)
    (tx : SignedTransaction) : Mempool × Option String :=
  if mp.max_size ≤ hmLen mp.pool then (mp, some "Mempool is full")
  else if hmContains mp.pool (txHash tx) then (mp, some "Duplicate transaction")
  else if ¬ sigok tx.transaction tx.public_key tx.signature then
    (mp, some "Invalid Signature")
  else (⟨hmInsert mp.pool (txHash tx) tx, mp.max_size⟩, none)

/-! ## Claim C6: mempool admission -/

/-- C6: `Mempool::add_transaction` rejects with the full-pool error when the
pool already holds `max_size` entries, with the duplicate error when (not
full and) a transaction with the same hash is pooled, and with the
invalid-signature error when (not full, not duplicate and) the signature does
not verify; each rejection returns the pool unchanged. Every transaction in
the pool after an add was already pooled or has a valid signature, and adding
the same transaction twice (with room left) yields success then the duplicate
rejection. -/
theorem c6_mempool_admission (sigok : Transaction → Nat → Nat → Bool)
    (txHash : SignedTransaction → Nat) :
    (∀ mp tx, hmLen mp.pool = mp.max_size →
      Mempool.add_transaction sigok txHash mp tx = (mp, some "Mempool is full")) ∧
    (∀ mp tx, hmLen mp.pool < mp.max_size →
      hmContains mp.pool (txHash tx) = true →
      Mempool.add_transaction sigok txHash mp tx =
        (mp, some "Duplicate transaction")) ∧
    (∀ mp tx, hmLen mp.pool < mp.max_size →
      hmContains mp.pool (txHash tx) = false →
      sigok tx.transaction tx.public_key tx.signature = false →
      Mempool.add_transaction sigok txHash mp tx =
        (mp, some "Invalid Signature")) ∧
    (∀ mp tx h tx', hmGet (Mempool.add_transaction sigok txHash mp tx).1.pool h =
        some tx' →
      hmGet mp.pool h = some tx' ∨
        sigok tx'.transaction tx'.public_key tx'.signature = true) ∧
    (∀ mp mp' tx, Mempool.add_transaction sigok txHash mp tx = (mp', none) →
      hmLen mp'.pool < mp'.max_size →
      Mempool.add_transaction sigok txHash mp' tx =
        (mp', some "Duplicate transaction")) := by
  refine ⟨?_, ?_, ?_, ?_, ?_⟩
  · intro mp tx hfull
    unfold Mempool.add_transaction
    rw [if_pos (Nat.le_of_eq hfull.symm)]
  · intro mp tx hroom hdup
    unfold Mempool.add_transaction
    rw [if_neg (Nat.not_le_of_lt hroom), if_pos hdup]
  · intro mp tx hroom hdup hsig
    unfold Mempool.add_transaction
    rw [if_neg (Nat.not_le_of_lt hroom)]
    rw [hdup]
    simp only [Bool.false_eq_true, if_false]
    rw [hsig]
    simp
  · intro mp tx h tx' hget
    unfold Mempool.add_transaction at hget
    by_cases hfull : mp.max_size ≤ hmLen mp.pool
    · rw [if_pos hfull] at hget
      exact Or.inl hget
    · rw [if_neg hfull] at hget
      by_cases hdup : hmContains mp.pool (txHash tx) = true
      · rw [if_pos hdup] at hget
        exact Or.inl hget
      · rw [if_neg hdup] at hget
        by_cases hsig : sigok tx.transaction tx.public_key tx.signature = true
        · rw [if_neg (by rw [hsig]; exact fun hh => hh rfl)] at hget
          by_cases hkey : h = txHash tx
          · subst hkey
            rw [hmGet_insert_self] at hget
            rw [Option.some.injEq] at hget
            subst hget
            exact Or.inr hsig
          · rw [hmGet_insert_ne _ _ hkey] at hget
            exact Or.inl hget
        · rw [if_pos (by rw [Bool.not_eq_true] at hsig; rw [hsig]; exact
            fun hh => (Bool.false_ne_true hh))] at hget
          exact Or.inl hget
  · intro mp mp' tx hadd hroom
    have hmem : hmContains mp'.pool (txHash tx) = true := by
      unfold Mempool.add_transaction at hadd
      by_cases hfull : mp.max_size ≤ hmLen mp.pool
      · rw [if_pos hfull] at hadd
        cases hadd
      · rw [if_neg hfull] at hadd
        by_cases hdup : hmContains mp.pool (txHash tx) = true
        · rw [if_pos hdup] at hadd
          cases hadd
        · rw [if_neg hdup] at hadd
          by_cases hsig : sigok tx.transaction tx.public_key tx.signature = true
          · rw [if_neg (by rw [hsig]; exact fun hh => hh rfl)] at hadd
            rw [Prod.mk.injEq] at hadd
            rw [← hadd.1]
            simp [hmContains, hmGet_insert_self]
          · rw [if_pos (by rw [Bool.not_eq_true] at hsig; rw [hsig]; exact
              fun hh => (Bool.false_ne_true hh))] at hadd
            cases hadd
    unfold Mempool.add_transaction
    rw [if_neg (Nat.not_le_of_lt hroom), if_pos hmem]

/-- Witness for C6 at concrete inputs: a pool of capacity 0 is already full,
so any add is rejected with the full-pool error and the pool is unchanged. -/
theorem c6_mempool_admission_witness :
    Mempool.add_transaction (fun _ _ _ => true) (fun _ => 0) (Mempool.new 0)
        ⟨⟨0, 0, 0⟩, 0, 0⟩ =
      (Mempool.new 0, some "Mempool is full") :=
  (c6_mempool_admission (fun _ _ _ => true) (fun _ => 0)).1 (Mempool.new 0)
    ⟨⟨0, 0, 0⟩, 0, 0⟩ rfl

/-! ## Merkle tree (src/types/merkle.rs)

The input list of hashable items is abstracted to the list of its leaf
hashes (`data.iter().map(|item| item.hash())`), and the internal node hash
(SHA-256 of the concatenation of two child digests) is abstracted to a
binary function parameter `nh`. -/

/-- One chunk-of-2 pass: hash consecutive pairs (`current_level.chunks(2)`). -/
def pairUp (nh : Nat → Nat → Nat) : List Nat → List Nat
  | a :: b :: rest => nh a b :: pairUp nh rest
  | _ => []

/-- Duplicate the last node when the level has odd length (the in-loop
`current_level.push(last)` of `MerkleTree::new`). -/
def padLevel (l : List Nat) : List Nat :=
  if l.length % 2 = 1 then l ++ [l.getLastD 0] else l

/-- One level-up step of `MerkleTree::new`. -/
def nextLevel (nh : Nat → Nat → Nat) (l : List Nat) : List Nat :=
  pairUp nh (padLevel l)

/-- The `while current_level.len() > 1` loop of `MerkleTree::new`, collecting
the levels it pushes. Each pass strictly shrinks the level, so a fuel equal
to the initial length always suffices. -/
def buildLevels (nh : Nat → Nat → Nat) : Nat → List Nat → List (List Nat)
  | 0, _ => []
  | fuel + 1, current =>
      if current.length ≤ 1 then []
      else nextLevel nh current :: buildLevels nh fuel (nextLevel nh current)

/-- `MerkleTree::new` over the list of leaf hashes: the stored `nodes`
levels. Note each stored level is the level as pushed, before the odd-length
duplication that happens when the next level is computed from it. -/
def Merkle.new (nh : Nat → Nat → Nat) (leafHashes : List Nat) :
    List (List Nat) :=
  if leafHashes = [] then [[0]]
  else leafHashes :: buildLevels nh leafHashes.length leafHashes

/-- `MerkleTree::root`: head of the last stored level. -/
def Merkle.root (nodes : List (List Nat)) : Nat :=
  match nodes.getLast? with
  | some lvl => lvl.headD 0
  | none => 0

/-- The per-level loop of `MerkleTree::proof`: push the sibling when its
index is within the stored level, then halve the index. -/
def proofGo : List (List Nat) → Nat → List Nat
  | [], _ => []
  | level :: rest, idx =>
      (if (if idx % 2 = 0 then idx + 1 else idx - 1) < level.length
        then [level.getD (if idx % 2 = 0 then idx + 1 else idx - 1) 0]
        else []) ++ proofGo rest (idx / 2)

/-- `MerkleTree::proof(index)`: walk every stored level below the root. -/
def Merkle.proof (nodes : List (List Nat)) (index : Nat) : List Nat :=
  proofGo nodes.dropLast index

/-- The folding loop of `merkle::verify`: combine with each proof entry on
the side given by the index parity, halving the index each step. -/
def verifyGo (nh : Nat → Nat → Nat) : Nat → Nat → List Nat → Nat
  | h, _, [] => h
  | h, idx, sib :: rest =>
      if idx % 2 = 0 then verifyGo nh (nh h sib) (idx / 2) rest
      else verifyGo nh (nh sib h) (idx / 2) rest

/-- `merkle::verify(root, datum, proof, index, leaf_size)`. -/
def Merkle.verify (nh : Nat → Nat → Nat) (root datum : Nat) (pf : List Nat)
    (index leaf_size : Nat) : Bool :=
  if leaf_size ≤ index then false
  else decide (verifyGo nh datum index pf = root)

/-! ## Claim C5: Merkle round-trip (code bug)

For a 3-leaf tree the last leaf's path needs the duplicated sibling, but
`MerkleTree::proof` checks `sibling_index < level.len()` against the stored
pre-duplication level, so that sibling is never emitted: the proof for index
2 in a 3-leaf tree is one entry short and `verify` folds the wrong entries.
The round-trip therefore fails at index 2 of any 3-item list, contradicting
the claim (and the spec's Merkle round-trip property) for every choice of
hash function. `Nat.pair` stands in for the (injective, in the model) node
hash below; the failure is structural, not a hash artifact. -/

/-- C5 (code bug, evaluated at the failing input): with leaf hashes
`[1, 2, 3]`, the proof/verify round-trip succeeds at index 0 but returns
`false` at index 2, where the claim says every index below the length
verifies. The generated proof for index 2 is `[nh 1 2]`, missing the
duplicated-sibling entry for leaf 3. -/
theorem c5_merkle_roundtrip_failing_input :
    Merkle.verify Nat.pair (Merkle.root (Merkle.new Nat.pair [1, 2, 3])) 1
        (Merkle.proof (Merkle.new Nat.pair [1, 2, 3]) 0) 0 3 = true ∧
    Merkle.proof (Merkle.new Nat.pair [1, 2, 3]) 2 = [Nat.pair 1 2] ∧
    Merkle.verify Nat.pair (Merkle.root (Merkle.new Nat.pair [1, 2, 3])) 3
        (Merkle.proof (Merkle.new Nat.pair [1, 2, 3]) 2) 2 3 = false := by
  refine ⟨by decide, by decide, by decide⟩

/-! ## Blockchain ledger (src/blockchain/mod.rs)

`hashH` abstracts `Header::hash` (SHA-256 of the bincode-serialized header);
`Block::hash` is the header hash. -/

/-- The fixed genesis difficulty
`00001fffffffffffffffffffffffffffffffffffffffffffffffffffffffffff`. -/
def GENESIS_DIFFICULTY : Nat :=
  0x00001fffffffffffffffffffffffffffffffffffffffffffffffffffffffffff

/-- The hard-coded genesis block of `Blockchain::new`: all-zero parent,
nonce 0, the fixed difficulty, timestamp 0, all-zero merkle root, no
transactions. -/
def genesisBlock : Block :=
  ⟨⟨0, 0, GENESIS_DIFFICULTY, 0, 0⟩, ⟨[]⟩⟩

/-- `Blockchain { blocks, heights, tip }`. -/
structure Blockchain where
  blocks : HMap Block
  heights : HMap Nat
  tip : Nat
deriving Repr

/-- `Blockchain::new`: only the genesis block, at height 0, as tip. -/
def Blockchain.new (hashH : Header → Nat) : Blockchain :=
  ⟨hmInsert [] (hashH genesisBlock.header) genesisBlock,
   hmInsert [] (hashH genesisBlock.header) 0,
   hashH genesisBlock.header⟩

/-- `Blockchain::insert`: no-op when the parent is not in the height map;
otherwise record the block, record height = parent height + 1, and advance
the tip when the new height strictly exceeds the (freshly re-read) height of
the current tip. -/
def Blockchain.insert (hashH : Header → Nat) (bc : Blockchain) (b : Block) :
    Blockchain :=
  match hmGet bc.heights (Block.get_parent b) with
  | none => bc
  | some parent_height =>
      let block_hash := hashH b.header
      let blocks2 := hmInsert bc.blocks block_hash b
      let block_height := parent_height + 1
      let heights2 := hmInsert bc.heights block_hash block_height
      if (hmGet heights2 bc.tip).getD 0 < block_height then
        ⟨blocks2, heights2, block_hash⟩
      else
        ⟨blocks2, heights2, bc.tip⟩

/-- `Blockchain::tip`. -/
def Blockchain.getTip (bc : Blockchain) : Nat := bc.tip

/-- The backward walk of `Blockchain::all_blocks_in_longest_chain`: push the
current hash while it is a known block, step to its parent, stop early when
the parent is the all-zero digest. Fuel bounds the loop; on every state
reachable by `insert` from `new` the fuel `hmLen blocks + 1` is never
exhausted (heights strictly decrease along parent links). -/
def chainWalk (blocks : HMap Block) : Nat → Nat → List Nat
  | 0, _ => []
  | fuel + 1, current =>
      match hmGet blocks current with
      | none => []
      | some b =>
          if b.header.parent = 0 then [current]
          else current :: chainWalk blocks fuel b.header.parent

/-- `Blockchain::all_blocks_in_longest_chain`: walk back from the tip, then
reverse to genesis-to-tip order. -/
def Blockchain.all_blocks_in_longest_chain (bc : Blockchain) : List Nat :=
  (chainWalk bc.blocks (hmLen bc.blocks + 1) bc.tip).reverse

/-- Standing assumptions on the abstract header hash: collision-free,
never the all-zero digest, and no header hashes to its own parent pointer.
All hold (cryptographically) for the real SHA-256 header hash and are
satisfied by the concrete `encodeHeader` witness below. -/
structure HashOK (hashH : Header → Nat) : Prop where
  inj : Function.Injective hashH
  nz : ∀ hdr, hashH hdr ≠ 0
  nself : ∀ hdr, hashH hdr ≠ hdr.parent

/-- Concrete injective header encoding used by witnesses in place of the
SHA-256 header hash. -/
def encodeHeader (hdr : Header) : Nat :=
  Nat.pair hdr.parent (Nat.pair hdr.nonce (Nat.pair hdr.difficulty
    (Nat.pair hdr.timestamp hdr.merkle_root))) + 1

theorem encodeHeader_hashOK : HashOK encodeHeader := by
  refine ⟨?_, ?_, ?_⟩
  · intro x y hxy
    unfold encodeHeader at hxy
    have h1 := Nat.succ_injective hxy
    rw [Nat.pair_eq_pair] at h1
    have h2 := h1.2
    rw [Nat.pair_eq_pair] at h2
    have h3 := h2.2
    rw [Nat.pair_eq_pair] at h3
    have h4 := h3.2
    rw [Nat.pair_eq_pair] at h4
    cases x
    cases y
    simp only [Header.mk.injEq]
    exact ⟨h1.1, h2.1, h3.1, h4.1, h4.2⟩
  · intro hdr
    unfold encodeHeader
    exact Nat.succ_ne_zero _
  · intro hdr
    unfold encodeHeader
    have := Nat.left_le_pair hdr.parent (Nat.pair hdr.nonce
      (Nat.pair hdr.difficulty (Nat.pair hdr.timestamp hdr.merkle_root)))
    omega

theorem insert_eq_of_parent_none (hashH : Header → Nat) (bc : Blockchain)
    (b : Block) (h : hmGet bc.heights (Block.get_parent b) = none) :
    Blockchain.insert hashH bc b = bc := by
  unfold Blockchain.insert
  rw [h]

theorem insert_eq_of_parent_some (hashH : Header → Nat) (bc : Blockchain)
    (b : Block) {ph : Nat}
    (h : hmGet bc.heights (Block.get_parent b) = some ph) :
    Blockchain.insert hashH bc b =
      if (hmGet (hmInsert bc.heights (hashH b.header) (ph + 1)) bc.tip).getD 0 <
          ph + 1 then
        ⟨hmInsert bc.blocks (hashH b.header) b,
         hmInsert bc.heights (hashH b.header) (ph + 1), hashH b.header⟩
      else
        ⟨hmInsert bc.blocks (hashH b.header) b,
         hmInsert bc.heights (hashH b.header) (ph + 1), bc.tip⟩ := by
  unfold Blockchain.insert
  rw [h]

/-! ## Claim C1: fork choice -/

/-- C1: with the parent present, `Blockchain::insert` makes the new block the
tip exactly when its height strictly exceeds the current tip's height; and
after inserting `A` as the new tip, inserting a second block `B` of the same
height leaves the tip at `A` (first arrival wins among equal heights). The
freshness hypotheses (`hashH b.header ≠ bc.tip`, `hashH B.header ≠ hashH
A.header`) say the blocks are genuinely new, which a collision-free hash
guarantees. -/
theorem c1_fork_choice (hashH : Header → Nat) :
    (∀ (bc : Blockchain) (b : Block) (ph th : Nat),
      hmGet bc.heights (Block.get_parent b) = some ph →
      hmGet bc.heights bc.tip = some th →
      hashH b.header ≠ bc.tip →
      ((Blockchain.insert hashH bc b).tip = hashH b.header ↔ th < ph + 1)) ∧
    (∀ (bc : Blockchain) (A B : Block) (pa pb th : Nat),
      hmGet bc.heights (Block.get_parent A) = some pa →
      hmGet bc.heights bc.tip = some th →
      th < pa + 1 →
      hashH A.header ≠ bc.tip →
      hmGet (Blockchain.insert hashH bc A).heights (Block.get_parent B) =
        some pb →
      pb + 1 = pa + 1 →
      hashH B.header ≠ hashH A.header →
      (Blockchain.insert hashH (Blockchain.insert hashH bc A) B).tip =
        hashH A.header) := by
  constructor
  · intro bc b ph th hp ht hfresh
    rw [insert_eq_of_parent_some hashH bc b hp]
    have hlook : hmGet (hmInsert bc.heights (hashH b.header) (ph + 1)) bc.tip =
        some th := by
      rw [hmGet_insert_ne _ _ (Ne.symm hfresh)]
      exact ht
    rw [hlook]
    simp only [Option.getD_some]
    by_cases hcmp : th < ph + 1
    · rw [if_pos hcmp]
      exact ⟨fun _ => hcmp, fun _ => rfl⟩
    · rw [if_neg hcmp]
      exact ⟨fun h' => absurd h'.symm hfresh, fun h' => absurd h' hcmp⟩
  · intro bc A B pa pb th hpA ht hlt hAfresh hpB hheq hBA
    have hbc1 : Blockchain.insert hashH bc A =
        ⟨hmInsert bc.blocks (hashH A.header) A,
         hmInsert bc.heights (hashH A.header) (pa + 1), hashH A.header⟩ := by
      rw [insert_eq_of_parent_some hashH bc A hpA]
      have hlook : hmGet (hmInsert bc.heights (hashH A.header) (pa + 1))
          bc.tip = some th := by
        rw [hmGet_insert_ne _ _ (Ne.symm hAfresh)]
        exact ht
      rw [hlook]
      simp only [Option.getD_some]
      rw [if_pos hlt]
    rw [hbc1] at hpB ⊢
    rw [insert_eq_of_parent_some hashH _ B hpB]
    have hlook2 : hmGet (hmInsert (hmInsert bc.heights (hashH A.header)
        (pa + 1)) (hashH B.header) (pb + 1)) (hashH A.header) =
        some (pa + 1) := by
      rw [hmGet_insert_ne _ _ (Ne.symm hBA)]
      exact hmGet_insert_self _ _ _
    rw [hlook2]
    simp only [Option.getD_some]
    rw [if_neg (by omega)]

/-- Simple injective-on-this-input header hash used by concrete ledgers in
witnesses. -/
def hashNonce (hdr : Header) : Nat := hdr.nonce + 1

/-- Concrete ledger for witnesses: one block entry with hash 1 at height 0,
tip 1. -/
def bc0 : Blockchain := ⟨[], [(1, 0)], 1⟩

/-- Concrete block for witnesses: parent hash 1, nonce 2 (so `hashNonce`
hash 3). -/
def b0 : Block := ⟨⟨1, 2, 0, 0, 0⟩, ⟨[]⟩⟩

/-- Witness for C1 at a concrete input: inserting a height-1 block over a
height-0 tip advances the tip to it. -/
theorem c1_fork_choice_witness :
    (Blockchain.insert hashNonce bc0 b0).tip = hashNonce b0.header :=
  ((c1_fork_choice hashNonce).1 bc0 b0 0 0 (by decide) (by decide)
    (by decide)).mpr (by decide)

/-! ## Claim C2: unknown parent is a no-op -/

/-- C2: inserting a block whose parent hash is absent from the height map
leaves the ledger (block map, height map and tip) unchanged; and inserting a
child before its parent is a no-op, after which inserting the parent and
re-inserting the child records the child and advances the tip to it. -/
theorem c2_insert_missing_parent (hashH : Header → Nat) :
    (∀ (bc : Blockchain) (b : Block),
      hmGet bc.heights (Block.get_parent b) = none →
      Blockchain.insert hashH bc b = bc) ∧
    (∀ (bc : Blockchain) (P C : Block) (pp th : Nat),
      Block.get_parent C = hashH P.header →
      hmGet bc.heights (hashH P.header) = none →
      hmGet bc.heights (Block.get_parent P) = some pp →
      hmGet bc.heights bc.tip = some th →
      th < pp + 1 →
      hashH P.header ≠ bc.tip →
      hashH C.header ≠ hashH P.header →
      Blockchain.insert hashH bc C = bc ∧
      hmGet (Blockchain.insert hashH (Blockchain.insert hashH
          (Blockchain.insert hashH bc C) P) C).blocks (hashH C.header) =
        some C ∧
      (Blockchain.insert hashH (Blockchain.insert hashH
          (Blockchain.insert hashH bc C) P) C).tip = hashH C.header) := by
  constructor
  · intro bc b h
    exact insert_eq_of_parent_none hashH bc b h
  · intro bc P C pp th hCP hPabs hpp ht hlt hPfresh hCP2
    have hnoop : Blockchain.insert hashH bc C = bc := by
      apply insert_eq_of_parent_none
      rw [hCP]
      exact hPabs
    refine ⟨hnoop, ?_, ?_⟩ <;> rw [hnoop]
    all_goals {
      have hbcP : Blockchain.insert hashH bc P =
          ⟨hmInsert bc.blocks (hashH P.header) P,
           hmInsert bc.heights (hashH P.header) (pp + 1), hashH P.header⟩ := by
        rw [insert_eq_of_parent_some hashH bc P hpp]
        have hlook : hmGet (hmInsert bc.heights (hashH P.header) (pp + 1))
            bc.tip = some th := by
          rw [hmGet_insert_ne _ _ (Ne.symm hPfresh)]
          exact ht
        rw [hlook]
        simp only [Option.getD_some]
        rw [if_pos hlt]
      rw [hbcP]
      have hpC : hmGet (hmInsert bc.heights (hashH P.header) (pp + 1))
          (Block.get_parent C) = some (pp + 1) := by
        rw [hCP]
        exact hmGet_insert_self _ _ _
      rw [insert_eq_of_parent_some hashH _ C hpC]
      have hlookC : hmGet (hmInsert (hmInsert bc.heights (hashH P.header)
          (pp + 1)) (hashH C.header) (pp + 1 + 1)) (hashH P.header) =
          some (pp + 1) := by
        rw [hmGet_insert_ne _ _ (Ne.symm hCP2)]
        exact hmGet_insert_self _ _ _
      rw [hlookC]
      simp only [Option.getD_some]
      rw [if_pos (by omega)]
      try exact hmGet_insert_self _ _ _
    }

/-- Witness for C2 at a concrete input: inserting a grandchild block before
its parent leaves the concrete ledger unchanged; after adding the parent and
retrying, the grandchild is recorded and becomes the tip. -/
theorem c2_insert_missing_parent_witness :
    Blockchain.insert hashNonce bc0 ⟨⟨3, 7, 0, 0, 0⟩, ⟨[]⟩⟩ = bc0 ∧
    hmGet (Blockchain.insert hashNonce (Blockchain.insert hashNonce
        (Blockchain.insert hashNonce bc0 ⟨⟨3, 7, 0, 0, 0⟩, ⟨[]⟩⟩) b0)
        ⟨⟨3, 7, 0, 0, 0⟩, ⟨[]⟩⟩).blocks
      (hashNonce (Header.mk 3 7 0 0 0)) = some ⟨⟨3, 7, 0, 0, 0⟩, ⟨[]⟩⟩ ∧
    (Blockchain.insert hashNonce (Blockchain.insert hashNonce
        (Blockchain.insert hashNonce bc0 ⟨⟨3, 7, 0, 0, 0⟩, ⟨[]⟩⟩) b0)
        ⟨⟨3, 7, 0, 0, 0⟩, ⟨[]⟩⟩).tip = hashNonce (Header.mk 3 7 0 0 0) :=
  (c2_insert_missing_parent hashNonce).2 bc0 b0 ⟨⟨3, 7, 0, 0, 0⟩, ⟨[]⟩⟩ 0 0
    (by decide) (by decide) (by decide) (by decide) (by decide) (by decide)
    (by decide)

/-! ## Claim C9: recorded heights and genesis -/

/-- C9: a block inserted with its parent present is recorded at the parent's
height plus 1, and `Blockchain::new` records the genesis block at height 0
with the all-zero parent digest. -/
theorem c9_height_and_genesis (hashH : Header → Nat) :
    (∀ (bc : Blockchain) (b : Block) (ph : Nat),
      hmGet bc.heights (Block.get_parent b) = some ph →
      hmGet (Blockchain.insert hashH bc b).heights (hashH b.header) =
        some (ph + 1)) ∧
    hmGet (Blockchain.new hashH).heights (hashH genesisBlock.header) =
      some 0 ∧
    hmGet (Blockchain.new hashH).blocks (hashH genesisBlock.header) =
      some genesisBlock ∧
    genesisBlock.header.parent = 0 := by
  refine ⟨?_, ?_, ?_, rfl⟩
  · intro bc b ph h
    rw [insert_eq_of_parent_some hashH bc b h]
    split <;> exact hmGet_insert_self _ _ _
  · exact hmGet_insert_self _ _ _
  · exact hmGet_insert_self _ _ _

/-- Witness for C9 at a concrete input: the height recorded for the inserted
block is its parent's height 0 plus 1. -/
theorem c9_height_and_genesis_witness :
    hmGet (Blockchain.insert hashNonce bc0 b0).heights (hashNonce b0.header) =
      some 1 :=
  (c9_height_and_genesis hashNonce).1 bc0 b0 0 (by decide)

/-! ## Ledger invariant, for the longest-chain walk (claim C3) -/

theorem hmGet_single {V : Type} (k h : Nat) (v : V) :
    hmGet (hmInsert [] k v) h = if h = k then some v else none := by
  rw [hmGet_insert]
  rfl

/-- Well-formedness of a ledger, established by `Blockchain::new` and
preserved by `Blockchain::insert` under the `HashOK` hash assumptions:
distinct block keys, no block stored under the all-zero digest, the genesis
entry, a tip with a recorded height, key/hash consistency, equal block and
height domains, height 0 only at genesis, parent links dropping the height by
exactly one, and heights bounded by the number of stored blocks. -/
structure LedgerInv (hashH : Header → Nat) (bc : Blockchain) : Prop where
  nodupB : hmNodup bc.blocks
  zeroFree : hmGet bc.heights 0 = none
  genB : hmGet bc.blocks (hashH genesisBlock.header) = some genesisBlock
  genH : hmGet bc.heights (hashH genesisBlock.header) = some 0
  tipSome : ∃ k, hmGet bc.heights bc.tip = some k
  keyHash : ∀ h b, hmGet bc.blocks h = some b → hashH b.header = h
  domBH : ∀ h, (hmGet bc.blocks h).isSome = (hmGet bc.heights h).isSome
  hZero : ∀ h, hmGet bc.heights h = some 0 → h = hashH genesisBlock.header
  parentLink : ∀ h b k, hmGet bc.blocks h = some b →
      hmGet bc.heights h = some k → k ≠ 0 →
      hmGet bc.heights b.header.parent = some (k - 1)
  hBound : ∀ h k, hmGet bc.heights h = some k → k ≤ hmLen bc.blocks

theorem inv_new (hashH : Header → Nat) (hOK : HashOK hashH) :
    LedgerInv hashH (Blockchain.new hashH) := by
  have hB : (Blockchain.new hashH).blocks =
      hmInsert [] (hashH genesisBlock.header) genesisBlock := rfl
  have hH : (Blockchain.new hashH).heights =
      hmInsert [] (hashH genesisBlock.header) 0 := rfl
  refine ⟨?_, ?_, ?_, ?_, ?_, ?_, ?_, ?_, ?_, ?_⟩
  · exact hmNodup_insert _ _ (by simp [hmNodup])
  · rw [hH, hmGet_single, if_neg (fun h => hOK.nz genesisBlock.header h.symm)]
  · exact hmGet_insert_self _ _ _
  · exact hmGet_insert_self _ _ _
  · exact ⟨0, hmGet_insert_self _ _ _⟩
  · intro h blk hget
    rw [hB, hmGet_single] at hget
    by_cases hh : h = hashH genesisBlock.header
    · rw [if_pos hh, Option.some.injEq] at hget
      rw [← hget, hh]
    · rw [if_neg hh] at hget
      exact Option.noConfusion hget
  · intro h
    rw [hB, hH, hmGet_single, hmGet_single]
    by_cases hh : h = hashH genesisBlock.header <;> simp [hh]
  · intro h hk
    rw [hH, hmGet_single] at hk
    by_cases hh : h = hashH genesisBlock.header
    · exact hh
    · rw [if_neg hh] at hk
      exact Option.noConfusion hk
  · intro h blk k hgetb hgeth hk
    rw [hH, hmGet_single] at hgeth
    by_cases hh : h = hashH genesisBlock.header
    · rw [if_pos hh, Option.some.injEq] at hgeth
      exact absurd hgeth.symm hk
    · rw [if_neg hh] at hgeth
      exact Option.noConfusion hgeth
  · intro h k hgeth
    rw [hH, hmGet_single] at hgeth
    by_cases hh : h = hashH genesisBlock.header
    · rw [if_pos hh, Option.some.injEq] at hgeth
      rw [← hgeth]
      exact Nat.zero_le _
    · rw [if_neg hh] at hgeth
      exact Option.noConfusion hgeth

theorem inv_insert (hashH : Header → Nat) (hOK : HashOK hashH)
    {bc : Blockchain} (inv : LedgerInv hashH bc) (b : Block) :
    LedgerInv hashH (Blockchain.insert hashH bc b) := by
  cases hpar : hmGet bc.heights (Block.get_parent b) with
  | none =>
    rw [insert_eq_of_parent_none hashH bc b hpar]
    exact inv
  | some ph =>
    have hpp : hmGet bc.heights b.header.parent = some ph := hpar
    have hbh0 : hashH b.header ≠ 0 := hOK.nz b.header
    have hbhp : hashH b.header ≠ b.header.parent := hOK.nself b.header
    have hbhgh : hashH b.header ≠ hashH genesisBlock.header := by
      intro hcontra
      have hhdr : b.header = genesisBlock.header := hOK.inj hcontra
      have hzero : b.header.parent = 0 := by rw [hhdr]; rfl
      rw [hzero, inv.zeroFree] at hpp
      exact Option.noConfusion hpp
    have hre : ∀ k0, hmGet bc.heights (hashH b.header) = some k0 →
        k0 = ph + 1 := by
      intro k0 hk0
      by_cases hz : k0 = 0
      · subst hz
        exact absurd (inv.hZero _ hk0) hbhgh
      · have hbsome : (hmGet bc.blocks (hashH b.header)).isSome = true := by
          rw [inv.domBH (hashH b.header), hk0]
          rfl
        obtain ⟨b0, hb0⟩ := Option.isSome_iff_exists.mp hbsome
        have hkey := inv.keyHash _ _ hb0
        have hhdr : b0.header = b.header := hOK.inj hkey
        have hpl := inv.parentLink _ _ _ hb0 hk0 hz
        rw [hhdr, hpp] at hpl
        rw [Option.some.injEq] at hpl
        omega
    have mk : ∀ t,
        (∃ k, hmGet (hmInsert bc.heights (hashH b.header) (ph + 1)) t =
          some k) →
        LedgerInv hashH ⟨hmInsert bc.blocks (hashH b.header) b,
          hmInsert bc.heights (hashH b.header) (ph + 1), t⟩ := by
      intro t htip
      refine ⟨?_, ?_, ?_, ?_, htip, ?_, ?_, ?_, ?_, ?_⟩
      · exact hmNodup_insert _ _ inv.nodupB
      · rw [hmGet_insert_ne _ _ (Ne.symm hbh0)]
        exact inv.zeroFree
      · rw [hmGet_insert_ne _ _ (Ne.symm hbhgh)]
        exact inv.genB
      · rw [hmGet_insert_ne _ _ (Ne.symm hbhgh)]
        exact inv.genH
      · intro h blk hget
        rw [hmGet_insert] at hget
        by_cases hh : h = hashH b.header
        · rw [if_pos hh, Option.some.injEq] at hget
          rw [← hget, hh]
        · rw [if_neg hh] at hget
          exact inv.keyHash _ _ hget
      · intro h
        rw [hmGet_insert, hmGet_insert]
        by_cases hh : h = hashH b.header
        · rw [if_pos hh, if_pos hh]
          rfl
        · rw [if_neg hh, if_neg hh]
          exact inv.domBH h
      · intro h hk
        rw [hmGet_insert] at hk
        by_cases hh : h = hashH b.header
        · rw [if_pos hh, Option.some.injEq] at hk
          exact absurd hk (by omega)
        · rw [if_neg hh] at hk
          exact inv.hZero _ hk
      · intro h blk k hgetb hgeth hk
        rw [hmGet_insert] at hgetb hgeth
        by_cases hh : h = hashH b.header
        · rw [if_pos hh, Option.some.injEq] at hgetb hgeth
          rw [← hgetb, ← hgeth]
          rw [hmGet_insert_ne _ _ (Ne.symm hbhp), hpp]
          simp
        · rw [if_neg hh] at hgetb hgeth
          have hpl := inv.parentLink _ _ _ hgetb hgeth hk
          by_cases hpp2 : blk.header.parent = hashH b.header
          · rw [hpp2] at hpl
            have hke := hre _ hpl
            rw [hpp2, hke]
            exact hmGet_insert_self _ _ _
          · rw [hmGet_insert_ne _ _ hpp2]
            exact hpl
      · intro h k hgeth
        rw [hmGet_insert] at hgeth
        by_cases hc : hmContains bc.blocks (hashH b.header) = true
        · rw [hmLen_insert_of_contains _ inv.nodupB hc]
          by_cases hh : h = hashH b.header
          · rw [if_pos hh, Option.some.injEq] at hgeth
            have hhsome : (hmGet bc.heights (hashH b.header)).isSome = true := by
              rw [← inv.domBH (hashH b.header)]
              exact hc
            obtain ⟨k0, hk0⟩ := Option.isSome_iff_exists.mp hhsome
            have hk0e := hre _ hk0
            have hbd := inv.hBound _ _ hk0
            omega
          · rw [if_neg hh] at hgeth
            exact inv.hBound _ _ hgeth
        · rw [Bool.not_eq_true] at hc
          rw [hmLen_insert_of_not_contains _ hc]
          by_cases hh : h = hashH b.header
          · rw [if_pos hh, Option.some.injEq] at hgeth
            have hbd := inv.hBound _ _ hpp
            omega
          · rw [if_neg hh] at hgeth
            have hbd := inv.hBound _ _ hgeth
            omega
    rw [insert_eq_of_parent_some hashH bc b hpar]
    split
    · exact mk _ ⟨ph + 1, hmGet_insert_self _ _ _⟩
    · obtain ⟨tk, htk⟩ := inv.tipSome
      by_cases hh : bc.tip = hashH b.header
      · exact mk _ ⟨ph + 1, by rw [hh]; exact hmGet_insert_self _ _ _⟩
      · exact mk _ ⟨tk, by rw [hmGet_insert_ne _ _ hh]; exact htk⟩

theorem inv_foldl (hashH : Header → Nat) (hOK : HashOK hashH) :
    ∀ (L : List Block) (bc : Blockchain), LedgerInv hashH bc →
      LedgerInv hashH (L.foldl (Blockchain.insert hashH) bc) := by
  intro L
  induction L with
  | nil => intro bc inv; exact inv
  | cons b L ih =>
    intro bc inv
    exact ih _ (inv_insert hashH hOK inv b)

theorem getLast?_cons_of_some {α : Type} (a x : α) {l : List α}
    (h : l.getLast? = some x) : (a :: l).getLast? = some x := by
  cases l with
  | nil => exact Option.noConfusion h
  | cons b t =>
    rw [List.getLast?_cons_cons]
    exact h

theorem chainWalk_spec (hashH : Header → Nat) (hOK : HashOK hashH)
    (bc : Blockchain) (inv : LedgerInv hashH bc) :
    ∀ (k h : Nat), hmGet bc.heights h = some k → ∀ fuel, k < fuel →
      (chainWalk bc.blocks fuel h).length = k + 1 ∧
      (chainWalk bc.blocks fuel h).head? = some h ∧
      (chainWalk bc.blocks fuel h).getLast? =
        some (hashH genesisBlock.header) ∧
      List.Chain' (fun a c => ∃ blk, hmGet bc.blocks a = some blk ∧
        blk.header.parent = c) (chainWalk bc.blocks fuel h) := by
  intro k
  induction k with
  | zero =>
    intro h hk fuel hf
    have hgh : h = hashH genesisBlock.header := inv.hZero _ hk
    subst hgh
    cases fuel with
    | zero => omega
    | succ f =>
      have hwalk : chainWalk bc.blocks (f + 1) (hashH genesisBlock.header) =
          [hashH genesisBlock.header] := by
        unfold chainWalk
        rw [inv.genB]
        rfl
      rw [hwalk]
      exact ⟨rfl, rfl, rfl, List.chain'_singleton _⟩
  | succ k ih =>
    intro h hk fuel hf
    have hbsome : (hmGet bc.blocks h).isSome = true := by
      rw [inv.domBH h, hk]
      rfl
    obtain ⟨b, hb⟩ := Option.isSome_iff_exists.mp hbsome
    have hpl := inv.parentLink _ _ _ hb hk (by omega)
    rw [Nat.add_sub_cancel] at hpl
    have hpnz : b.header.parent ≠ 0 := by
      intro hz
      rw [hz, inv.zeroFree] at hpl
      exact Option.noConfusion hpl
    cases fuel with
    | zero => omega
    | succ f =>
      obtain ⟨ihlen, ihhead, ihlast, ihchain⟩ :=
        ih b.header.parent hpl f (by omega)
      have hwalk : chainWalk bc.blocks (f + 1) h =
          h :: chainWalk bc.blocks f b.header.parent := by
        have h1 : chainWalk bc.blocks (f + 1) h =
            if b.header.parent = 0 then [h]
            else h :: chainWalk bc.blocks f b.header.parent := by
          simp only [chainWalk, hb]
        rw [h1, if_neg hpnz]
      rw [hwalk]
      refine ⟨?_, rfl, ?_, ?_⟩
      · rw [List.length_cons, ihlen]
      · exact getLast?_cons_of_some h _ ihlast
      · rw [List.chain'_cons']
        constructor
        · intro y hy
          rw [ihhead] at hy
          have hyp : b.header.parent = y := by simpa using hy
          subst hyp
          exact ⟨b, hb, rfl⟩
        · exact ihchain

/-! ## Claim C3: longest-chain walk correctness -/

/-- C3: on every ledger reachable from `Blockchain::new` by a sequence of
`insert`s (with a collision-free hash), `all_blocks_in_longest_chain` has
length equal to the tip's height plus 1, starts at the genesis hash, ends at
the tip, and every element's recorded parent hash is the preceding
element. -/
theorem c3_longest_chain (hashH : Header → Nat) (hOK : HashOK hashH)
    (L : List Block) (bc : Blockchain)
    (hbc : bc = L.foldl (Blockchain.insert hashH) (Blockchain.new hashH)) :
    ∃ th, hmGet bc.heights bc.tip = some th ∧
      (Blockchain.all_blocks_in_longest_chain bc).length = th + 1 ∧
      (Blockchain.all_blocks_in_longest_chain bc).head? =
        some (hashH genesisBlock.header) ∧
      (Blockchain.all_blocks_in_longest_chain bc).getLast? = some bc.tip ∧
      List.Chain' (fun a c => ∃ blk, hmGet bc.blocks c = some blk ∧
        blk.header.parent = a) (Blockchain.all_blocks_in_longest_chain bc) := by
  have inv : LedgerInv hashH bc := by
    rw [hbc]
    exact inv_foldl hashH hOK L _ (inv_new hashH hOK)
  obtain ⟨th, hth⟩ := inv.tipSome
  have hbound := inv.hBound _ _ hth
  obtain ⟨hlen, hhead, hlast, hchain⟩ :=
    chainWalk_spec hashH hOK bc inv th bc.tip hth (hmLen bc.blocks + 1)
      (by omega)
  refine ⟨th, hth, ?_, ?_, ?_, ?_⟩
  · unfold Blockchain.all_blocks_in_longest_chain
    rw [List.length_reverse, hlen]
  · unfold Blockchain.all_blocks_in_longest_chain
    rw [List.head?_reverse, hlast]
  · unfold Blockchain.all_blocks_in_longest_chain
    rw [List.getLast?_reverse, hhead]
  · unfold Blockchain.all_blocks_in_longest_chain
    rw [List.chain'_reverse]
    exact hchain

/-- Witness for C3 at a concrete input: the freshly created ledger (empty
insert sequence) under the concrete injective header encoding. -/
theorem c3_longest_chain_witness :
    ∃ th, hmGet (Blockchain.new encodeHeader).heights
        (Blockchain.new encodeHeader).tip = some th ∧
      (Blockchain.all_blocks_in_longest_chain
        (Blockchain.new encodeHeader)).length = th + 1 ∧
      (Blockchain.all_blocks_in_longest_chain
        (Blockchain.new encodeHeader)).head? =
        some (encodeHeader genesisBlock.header) ∧
      (Blockchain.all_blocks_in_longest_chain
        (Blockchain.new encodeHeader)).getLast? =
        some (Blockchain.new encodeHeader).tip ∧
      List.Chain' (fun a c => ∃ blk,
        hmGet (Blockchain.new encodeHeader).blocks c = some blk ∧
        blk.header.parent = a)
        (Blockchain.all_blocks_in_longest_chain
          (Blockchain.new encodeHeader)) :=
  c3_longest_chain encodeHeader encodeHeader_hashOK []
    (Blockchain.new encodeHeader) rfl

/-! ## Network worker (src/network/worker.rs)

Modelled from the spec where it leans on src/types/hash.rs: the
proof-of-work comparison `block.hash() > block.header.difficulty` compares
digests as unsigned big-endian integers, here the `Nat` order. -/

/-- State threaded through the `Message::Blocks` arm of `worker_loop`: the
shared ledger, the orphan buffer, the hashes collected for the post-batch
`NewBlockHashes` broadcast, and the parent hashes requested from the peer
via `GetBlocks`. -/
structure WorkerState where
  bc : Blockchain
  orphan_buffer : HMap (List Block)
  new_block_hashes : List Nat
  requests : List Nat
deriving Repr

/-- Per-block body of the `Message::Blocks` loop: drop the block when its
hash exceeds its header difficulty; buffer it as an orphan (and request the
parent) when the parent is not a known block; drop it when its difficulty
differs from the parent's; otherwise insert it if its hash is new and record
the hash for broadcast. -/
def processBlock (hashH : Header → Nat) (ws : WorkerState) (b : Block) :
    WorkerState :=
  if b.header.difficulty < hashH b.header then ws
  else if hmContains ws.bc.blocks b.header.parent = false then
    { ws with
      orphan_buffer := hmInsert ws.orphan_buffer b.header.parent
        ((hmGet ws.orphan_buffer b.header.parent).getD [] ++ [b]),
      requests := ws.requests ++ [b.header.parent] }
  else
    match hmGet ws.bc.blocks b.header.parent with
    | some parent_block =>
        if b.header.difficulty ≠ parent_block.header.difficulty then ws
        else if hmContains ws.bc.blocks (hashH b.header) = false then
          { ws with
            bc := Blockchain.insert hashH ws.bc b,
            new_block_hashes := ws.new_block_hashes ++ [hashH b.header] }
        else ws
    | none => ws

/-- The `Message::Blocks` arm over a received batch of blocks. -/
def handleBlocks (hashH : Header → Nat) (ws : WorkerState)
    (blocks : List Block) : WorkerState :=
  blocks.foldl (processBlock hashH) ws

theorem processBlock_pow_fail (hashH : Header → Nat) (ws : WorkerState)
    (b : Block) (hpow : b.header.difficulty < hashH b.header) :
    processBlock hashH ws b = ws := by
  unfold processBlock
  rw [if_pos hpow]

theorem processBlock_diff_mismatch (hashH : Header → Nat) (ws : WorkerState)
    (b : Block) (pb : Block)
    (hpar : hmGet ws.bc.blocks b.header.parent = some pb)
    (hd : b.header.difficulty ≠ pb.header.difficulty) :
    processBlock hashH ws b = ws := by
  unfold processBlock
  by_cases hpow : b.header.difficulty < hashH b.header
  · rw [if_pos hpow]
  · rw [if_neg hpow]
    have hcont : hmContains ws.bc.blocks b.header.parent = true := by
      simp [hmContains, hpar]
    rw [hcont]
    simp only [Bool.true_eq_false, if_false]
    split
    · rename_i parent_block heq
      rw [hpar, Option.some.injEq] at heq
      subst heq
      rw [if_pos hd]
    · rfl

theorem processBlock_effect (hashH : Header → Nat) (ws : WorkerState)
    (b : Block) :
    ((processBlock hashH ws b).bc = ws.bc ∧
     (processBlock hashH ws b).new_block_hashes = ws.new_block_hashes) ∨
    ((processBlock hashH ws b).bc = Blockchain.insert hashH ws.bc b ∧
     (processBlock hashH ws b).new_block_hashes =
       ws.new_block_hashes ++ [hashH b.header]) := by
  unfold processBlock
  by_cases hpow : b.header.difficulty < hashH b.header
  · rw [if_pos hpow]
    exact Or.inl ⟨rfl, rfl⟩
  · rw [if_neg hpow]
    by_cases horph : hmContains ws.bc.blocks b.header.parent = false
    · rw [if_pos horph]
      exact Or.inl ⟨rfl, rfl⟩
    · rw [if_neg horph]
      split
      · rename_i parent_block heq
        by_cases hd : b.header.difficulty ≠ parent_block.header.difficulty
        · rw [if_pos hd]
          exact Or.inl ⟨rfl, rfl⟩
        · rw [if_neg hd]
          by_cases hnew : hmContains ws.bc.blocks (hashH b.header) = false
          · rw [if_pos hnew]
            exact Or.inr ⟨rfl, rfl⟩
          · rw [if_neg hnew]
            exact Or.inl ⟨rfl, rfl⟩
      · exact Or.inl ⟨rfl, rfl⟩

theorem insert_contains_other (hashH : Header → Nat) (bc : Blockchain)
    (b : Block) (h : Nat) (hne : h ≠ hashH b.header) :
    hmContains (Blockchain.insert hashH bc b).blocks h =
      hmContains bc.blocks h := by
  cases hpar : hmGet bc.heights (Block.get_parent b) with
  | none => rw [insert_eq_of_parent_none hashH bc b hpar]
  | some ph =>
    rw [insert_eq_of_parent_some hashH bc b hpar]
    split <;>
      (show hmContains (hmInsert bc.blocks (hashH b.header) b) h = _
       unfold hmContains
       rw [hmGet_insert_ne _ _ hne])

/-! ## Claim C8: consensus-invalid blocks are dropped -/

/-- C8: in the `Message::Blocks` arm, a block that fails proof-of-work
(hash exceeds its header's difficulty), or whose parent is a known block but
whose difficulty differs from that parent's, is processed as a pure no-op;
and across a whole batch, a hash all of whose batch occurrences fail
proof-of-work is never in the ledger afterwards (if it was not before) and
never among the hashes collected for the post-batch broadcast. -/
theorem c8_invalid_blocks_dropped (hashH : Header → Nat) :
    (∀ (ws : WorkerState) (b : Block),
      (b.header.difficulty < hashH b.header ∨
        (∃ pb, hmGet ws.bc.blocks b.header.parent = some pb ∧
          b.header.difficulty ≠ pb.header.difficulty)) →
      processBlock hashH ws b = ws) ∧
    (∀ (blocks : List Block) (ws : WorkerState) (h : Nat),
      hmContains ws.bc.blocks h = false →
      h ∉ ws.new_block_hashes →
      (∀ b ∈ blocks, hashH b.header = h → b.header.difficulty < h) →
      hmContains (handleBlocks hashH ws blocks).bc.blocks h = false ∧
      h ∉ (handleBlocks hashH ws blocks).new_block_hashes) := by
  constructor
  · intro ws b hcase
    rcases hcase with hpow | ⟨pb, hpar, hd⟩
    · exact processBlock_pow_fail hashH ws b hpow
    · exact processBlock_diff_mismatch hashH ws b pb hpar hd
  · intro blocks
    induction blocks with
    | nil =>
      intro ws h hc hn _
      exact ⟨hc, hn⟩
    | cons b rest ih =>
      intro ws h hc hn hbad
      have hstep : hmContains (processBlock hashH ws b).bc.blocks h = false ∧
          h ∉ (processBlock hashH ws b).new_block_hashes := by
        by_cases hbh : hashH b.header = h
        · rw [processBlock_pow_fail hashH ws b
            (by rw [hbh]; exact hbad b (List.mem_cons_self b rest) hbh)]
          exact ⟨hc, hn⟩
        · rcases processBlock_effect hashH ws b with ⟨he1, he2⟩ | ⟨he1, he2⟩
          · rw [he1, he2]
            exact ⟨hc, hn⟩
          · constructor
            · rw [he1, insert_contains_other hashH ws.bc b h
                (fun hh => hbh hh.symm)]
              exact hc
            · rw [he2]
              intro hmem
              rcases List.mem_append.mp hmem with hm | hm
              · exact hn hm
              · exact hbh (List.mem_singleton.mp hm).symm
      have hrest : handleBlocks hashH ws (b :: rest) =
          handleBlocks hashH (processBlock hashH ws b) rest := by
        unfold handleBlocks
        rw [List.foldl_cons]
      rw [hrest]
      exact ih (processBlock hashH ws b) h hstep.1 hstep.2
        (fun b' hb' => hbad b' (List.mem_cons_of_mem b hb'))

/-- Concrete worker state for witnesses: the ledger of `bc0`, empty orphan
buffer, no collected hashes, no pending requests. -/
def ws0 : WorkerState := ⟨bc0, [], [], []⟩

/-- Witness for C8 at a concrete input: a block whose `hashNonce` hash 6
exceeds its difficulty 2 is dropped by the batch handler: hash 6 stays out
of the ledger and out of the broadcast list. -/
theorem c8_invalid_blocks_dropped_witness :
    hmContains (handleBlocks hashNonce ws0
        [⟨⟨1, 5, 2, 0, 0⟩, ⟨[]⟩⟩]).bc.blocks 6 = false ∧
    6 ∉ (handleBlocks hashNonce ws0
        [⟨⟨1, 5, 2, 0, 0⟩, ⟨[]⟩⟩]).new_block_hashes :=
  (c8_invalid_blocks_dropped hashNonce).2 [⟨⟨1, 5, 2, 0, 0⟩, ⟨[]⟩⟩] ws0 6
    (by decide) (by decide) (by decide)

/-! ## Orphan resolution (`Worker::process_orphans`) -/

/-- State threaded through one scan of `process_orphans`: the live orphan
buffer, the ledger, the hashes collected for broadcast in this scan, and the
`processed_any` flag. -/
structure ScanState where
  orphan_buffer : HMap (List Block)
  bc : Blockchain
  new_block_hashes : List Nat
  progress : Bool
deriving Repr

/-- Handling of one snapshot entry `(parent_hash, orphans)` inside the scan:
when the parent is now a known block, insert every buffered orphan (no
proof-of-work or difficulty re-check), record their hashes for broadcast,
mark progress, and remove the buffer entry. -/
def scanEntry (hashH : Header → Nat) (st : ScanState) (e : Nat × List Block) :
    ScanState :=
  if hmContains st.bc.blocks e.1 then
    { orphan_buffer := hmErase st.orphan_buffer e.1,
      bc := e.2.foldl (Blockchain.insert hashH) st.bc,
      new_block_hashes := st.new_block_hashes ++
        e.2.map (fun o => hashH o.header),
      progress := true }
  else st

/-- One full scan of `process_orphans` over a snapshot
(`orphan_buffer.clone()`) of the buffer taken at scan start. -/
def orphanScan (hashH : Header → Nat) (buffer : HMap (List Block))
    (bc : Blockchain) : ScanState :=
  buffer.foldl (scanEntry hashH) ⟨buffer, bc, [], false⟩

/-- The `while processed_any` fixed-point loop of `process_orphans`,
accumulating the hashes broadcast after each scan. Every productive scan
removes at least one buffer entry, so fuel `hmLen buffer + 1` always
suffices on real executions. -/
def processOrphansLoop (hashH : Header → Nat) :
    Nat → HMap (List Block) → Blockchain → List Nat →
      HMap (List Block) × Blockchain × List Nat
  | 0, buffer, bc, acc => (buffer, bc, acc)
  | fuel + 1, buffer, bc, acc =>
      if (orphanScan hashH buffer bc).progress then
        processOrphansLoop hashH fuel (orphanScan hashH buffer bc).orphan_buffer
          (orphanScan hashH buffer bc).bc
          (acc ++ (orphanScan hashH buffer bc).new_block_hashes)
      else ((orphanScan hashH buffer bc).orphan_buffer,
        (orphanScan hashH buffer bc).bc,
        acc ++ (orphanScan hashH buffer bc).new_block_hashes)

/-- `Worker::process_orphans`. -/
def process_orphans (hashH : Header → Nat) (buffer : HMap (List Block))
    (bc : Blockchain) : HMap (List Block) × Blockchain × List Nat :=
  processOrphansLoop hashH (hmLen buffer + 1) buffer bc []

theorem insert_blocks_mono (hashH : Header → Nat) (bc : Blockchain)
    (b : Block) {h : Nat} (hc : hmContains bc.blocks h = true) :
    hmContains (Blockchain.insert hashH bc b).blocks h = true := by
  cases hpar : hmGet bc.heights (Block.get_parent b) with
  | none =>
    rw [insert_eq_of_parent_none hashH bc b hpar]
    exact hc
  | some ph =>
    rw [insert_eq_of_parent_some hashH bc b hpar]
    split <;> exact hmContains_insert_of_contains _ _ _ hc

theorem insert_heights_mono (hashH : Header → Nat) (bc : Blockchain)
    (b : Block) {h : Nat} (hc : hmContains bc.heights h = true) :
    hmContains (Blockchain.insert hashH bc b).heights h = true := by
  cases hpar : hmGet bc.heights (Block.get_parent b) with
  | none =>
    rw [insert_eq_of_parent_none hashH bc b hpar]
    exact hc
  | some ph =>
    rw [insert_eq_of_parent_some hashH bc b hpar]
    split <;> exact hmContains_insert_of_contains _ _ _ hc

theorem foldlInsert_blocks_mono (hashH : Header → Nat) :
    ∀ (l : List Block) (bc : Blockchain) (h : Nat),
      hmContains bc.blocks h = true →
      hmContains (l.foldl (Blockchain.insert hashH) bc).blocks h = true := by
  intro l
  induction l with
  | nil => intro bc h hc; exact hc
  | cons b rest ih =>
    intro bc h hc
    rw [List.foldl_cons]
    exact ih _ h (insert_blocks_mono hashH bc b hc)

theorem foldlInsert_heights_mono (hashH : Header → Nat) :
    ∀ (l : List Block) (bc : Blockchain) (h : Nat),
      hmContains bc.heights h = true →
      hmContains (l.foldl (Blockchain.insert hashH) bc).heights h = true := by
  intro l
  induction l with
  | nil => intro bc h hc; exact hc
  | cons b rest ih =>
    intro bc h hc
    rw [List.foldl_cons]
    exact ih _ h (insert_heights_mono hashH bc b hc)

theorem foldlInsert_contains_of_mem (hashH : Header → Nat) :
    ∀ (l : List Block) (bc : Blockchain) (b : Block),
      b ∈ l → hmContains bc.heights b.header.parent = true →
      hmContains (l.foldl (Blockchain.insert hashH) bc).blocks
        (hashH b.header) = true := by
  intro l
  induction l with
  | nil => intro bc b hmem; exact absurd hmem (List.not_mem_nil b)
  | cons b0 rest ih =>
    intro bc b hmem hpar
    rw [List.foldl_cons]
    rcases List.mem_cons.mp hmem with hb | hb
    · subst hb
      apply foldlInsert_blocks_mono
      obtain ⟨k, hk⟩ := Option.isSome_iff_exists.mp hpar
      rw [insert_eq_of_parent_some hashH bc b hk]
      split <;>
        (show hmContains (hmInsert bc.blocks (hashH b.header) b) _ = true
         unfold hmContains
         rw [hmGet_insert_self]
         rfl)
    · exact ih _ b hb (insert_heights_mono hashH bc b0 hpar)

theorem scanEntry_blocks_mono (hashH : Header → Nat) (st : ScanState)
    (e : Nat × List Block) {h : Nat}
    (hc : hmContains st.bc.blocks h = true) :
    hmContains (scanEntry hashH st e).bc.blocks h = true := by
  unfold scanEntry
  split
  · exact foldlInsert_blocks_mono hashH e.2 st.bc h hc
  · exact hc

theorem scanEntry_heights_mono (hashH : Header → Nat) (st : ScanState)
    (e : Nat × List Block) {h : Nat}
    (hc : hmContains st.bc.heights h = true) :
    hmContains (scanEntry hashH st e).bc.heights h = true := by
  unfold scanEntry
  split
  · exact foldlInsert_heights_mono hashH e.2 st.bc h hc
  · exact hc

theorem scanFold_blocks_mono (hashH : Header → Nat) :
    ∀ (entries : List (Nat × List Block)) (st : ScanState) (h : Nat),
      hmContains st.bc.blocks h = true →
      hmContains ((entries.foldl (scanEntry hashH) st).bc.blocks) h = true := by
  intro entries
  induction entries with
  | nil => intro st h hc; exact hc
  | cons e rest ih =>
    intro st h hc
    rw [List.foldl_cons]
    exact ih _ h (scanEntry_blocks_mono hashH st e hc)

theorem scanFold_heights_mono (hashH : Header → Nat) :
    ∀ (entries : List (Nat × List Block)) (st : ScanState) (h : Nat),
      hmContains st.bc.heights h = true →
      hmContains ((entries.foldl (scanEntry hashH) st).bc.heights) h = true := by
  intro entries
  induction entries with
  | nil => intro st h hc; exact hc
  | cons e rest ih =>
    intro st h hc
    rw [List.foldl_cons]
    exact ih _ h (scanEntry_heights_mono hashH st e hc)

theorem hmGet_some_mem {V : Type} :
    ∀ {m : HMap V} {k : Nat} {v : V}, hmGet m k = some v → (k, v) ∈ m := by
  intro m
  induction m with
  | nil => intro k v h; exact Option.noConfusion h
  | cons p rest ih =>
    intro k v h
    obtain ⟨pk, pv⟩ := p
    by_cases hk : k = pk
    · subst hk
      rw [hmGet, if_pos rfl, Option.some.injEq] at h
      subst h
      exact List.mem_cons_self _ _
    · rw [hmGet, if_neg hk] at h
      exact List.mem_cons_of_mem _ (ih h)

theorem scanFold_processes_entry (hashH : Header → Nat) :
    ∀ (entries : List (Nat × List Block)) (st : ScanState) (p : Nat)
      (l : List Block) (b : Block),
      (p, l) ∈ entries → b ∈ l → b.header.parent = p →
      hmContains st.bc.blocks p = true →
      hmContains st.bc.heights p = true →
      hmContains ((entries.foldl (scanEntry hashH) st).bc.blocks)
        (hashH b.header) = true := by
  intro entries
  induction entries with
  | nil => intro st p l b hm; exact absurd hm (List.not_mem_nil _)
  | cons e rest ih =>
    intro st p l b hm hbmem hbp hcb hch
    rw [List.foldl_cons]
    rcases List.mem_cons.mp hm with he | he
    · subst he
      apply scanFold_blocks_mono
      unfold scanEntry
      rw [if_pos hcb]
      exact foldlInsert_contains_of_mem hashH l st.bc b hbmem (hbp ▸ hch)
    · exact ih _ p l b he hbmem hbp (scanEntry_blocks_mono hashH st e hcb)
        (scanEntry_heights_mono hashH st e hch)

theorem loop_blocks_mono (hashH : Header → Nat) :
    ∀ (fuel : Nat) (buffer : HMap (List Block)) (bc : Blockchain)
      (acc : List Nat) (h : Nat),
      hmContains bc.blocks h = true →
      hmContains (processOrphansLoop hashH fuel buffer bc acc).2.1.blocks h =
        true := by
  intro fuel
  induction fuel with
  | zero => intro buffer bc acc h hc; exact hc
  | succ f ih =>
    intro buffer bc acc h hc
    have hscan : hmContains (orphanScan hashH buffer bc).bc.blocks h = true :=
      scanFold_blocks_mono hashH buffer ⟨buffer, bc, [], false⟩ h hc
    unfold processOrphansLoop
    split
    · exact ih _ _ _ h hscan
    · exact hscan

/-! ## Claim C10: orphan resolution skips the difficulty check -/

/-- C10: a block buffered under a parent hash that is a known block (with a
recorded height) is inserted into the ledger by `process_orphans` with no
difficulty re-check — the hypotheses say nothing about its difficulty
matching the parent's — so a proof-of-work-valid block whose difficulty
differs from its parent's enters the ledger through the orphan path, while
the direct `Message::Blocks` path leaves the worker state untouched for the
same block. -/
theorem c10_orphan_path_skips_difficulty (hashH : Header → Nat)
    (buffer : HMap (List Block)) (bc : Blockchain) (p : Nat)
    (l : List Block) (b : Block) (pb : Block) (k : Nat)
    (hbuf : hmGet buffer p = some l) (hbmem : b ∈ l)
    (hbp : b.header.parent = p)
    (hpblock : hmGet bc.blocks p = some pb)
    (hpheight : hmGet bc.heights p = some k)
    (hdmis : b.header.difficulty ≠ pb.header.difficulty)
    (hpow : hashH b.header ≤ b.header.difficulty) :
    hmContains (process_orphans hashH buffer bc).2.1.blocks
      (hashH b.header) = true ∧
    (∀ nbh req, processBlock hashH ⟨bc, buffer, nbh, req⟩ b =
      ⟨bc, buffer, nbh, req⟩) := by
  constructor
  · have hcb : hmContains bc.blocks p = true := by
      simp [hmContains, hpblock]
    have hch : hmContains bc.heights p = true := by
      simp [hmContains, hpheight]
    have hmem := hmGet_some_mem hbuf
    unfold process_orphans
    have hscan : hmContains (orphanScan hashH buffer bc).bc.blocks
        (hashH b.header) = true :=
      scanFold_processes_entry hashH buffer ⟨buffer, bc, [], false⟩ p l b
        hmem hbmem hbp hcb hch
    unfold processOrphansLoop
    split
    · exact loop_blocks_mono hashH _ _ _ _ _ hscan
    · exact hscan
  · intro nbh req
    exact processBlock_diff_mismatch hashH ⟨bc, buffer, nbh, req⟩ b pb
      (by rw [hbp]; exact hpblock) hdmis

/-- Concrete parent block for the C10 witness: difficulty 5, stored under
hash 1 in the ledger below. -/
def pblock : Block := ⟨⟨0, 0, 5, 0, 0⟩, ⟨[]⟩⟩

/-- Concrete ledger for the C10 witness: the parent block under hash 1 at
height 0, tip 1. -/
def bcP : Blockchain := ⟨[(1, pblock)], [(1, 0)], 1⟩

/-- Concrete orphan for the C10 witness: parent hash 1, nonce 2 (so
`hashNonce` hash 3), difficulty 9 — proof-of-work-valid (3 ≤ 9) but with a
difficulty different from the parent's 5. -/
def orphanB : Block := ⟨⟨1, 2, 9, 0, 0⟩, ⟨[]⟩⟩

/-- Witness for C10 at a concrete input: the mismatched-difficulty orphan is
inserted by `process_orphans` while the direct path drops it. -/
theorem c10_orphan_path_skips_difficulty_witness :
    hmContains (process_orphans hashNonce [(1, [orphanB])] bcP).2.1.blocks
      (hashNonce orphanB.header) = true ∧
    processBlock hashNonce ⟨bcP, [(1, [orphanB])], [], []⟩ orphanB =
      ⟨bcP, [(1, [orphanB])], [], []⟩ := by
  have h := c10_orphan_path_skips_difficulty hashNonce [(1, [orphanB])] bcP 1
    [orphanB] orphanB pblock 0 (by decide) (by decide) (by decide) (by decide)
    (by decide) (by decide) (by decide)
  exact ⟨h.1, h.2 [] []⟩
